import Mathlib

/-!
Shallow embedding of the GuidWire decision-tree core:
`TreeBuilder.validate` (src/builder/tree_builder.py) and the
`TreeEngine` navigation session (src/viewer/tree_engine.py).

Raw JSON documents are modelled structurally: an absent key is `none`.
String values of `next`, `label`, `id`, `type`, `text` are Lean `String`s;
the `options` value, when present, is a list of raw options.  Python
truthiness of these values (`None`, `""` and `[]` are falsy) is modelled
explicitly where the source relies on it.
-/

/-- Raw option object inside a question node's `options` list. -/
structure RawOption where
  label : Option String
  next : Option String
deriving DecidableEq

/-- Raw node object of the `nodes` list of a tree document. -/
structure RawNode where
  id : Option String
  type : Option String
  text : Option String
  next : Option String
  options : Option (List RawOption)
deriving DecidableEq

/-- Raw tree document, as handed to `TreeBuilder.validate`. -/
structure RawTree where
  title : Option String
  description : Option String
  nodes : Option (List RawNode)
deriving DecidableEq

/-- Validation failures raised by `TreeBuilder.validate` as `ValueError`s,
one constructor per distinct message shape, carrying the data interpolated
into the message. -/
inductive ValidationError where
  | missingKey (key : String)
  | emptyNodes
  | nodeMissingKey (key : String)
  | missingStart
  | questionOptions (nodeId : String)
  | optionMissingKeys (nodeId : String)
  | optionUnknownNext (label : String) (nodeId : String) (next : String)
  | stepMissingNext (nodeId : String)
  | stepUnknownNext (nodeId : String) (next : String)
  | resolutionNotTerminal (nodeId : String)
  | unknownType (nodeId : String) (type : String)
  | unreachable (ids : List String)
deriving DecidableEq

deriving instance DecidableEq for Except

/-- Python truthiness of a possibly-absent string value: `None` and `""`
are falsy. -/
def pyTruthyStr : Option String → Bool
  | none => false
  | some s => !(s = "")

/-- Python truthiness of a possibly-absent options list: `None` and `[]`
are falsy. -/
def pyTruthyOpts : Option (List RawOption) → Bool
  | none => false
  | some l => !(l = [])

/-- First loop of `validate`: check that every node has `id`, `type` and
`text` (in that key order, failing fast) and collect the node ids in node
order.  Mirrors tree_builder.py lines 33-38. -/
def collectIds : List RawNode → Except ValidationError (List String)
  | [] => .ok []
  | n :: rest =>
    match n.id with
    | none => .error (.nodeMissingKey "id")
    | some i =>
      match n.type with
      | none => .error (.nodeMissingKey "type")
      | some _ =>
        match n.text with
        | none => .error (.nodeMissingKey "text")
        | some _ =>
          match collectIds rest with
          | .error e => .error e
          | .ok ids => .ok (i :: ids)

/-- Inner loop of the question branch of `validate`: check each option for
`label` and `next` keys and a known `next` target, collecting the targets
in option order.  Mirrors tree_builder.py lines 56-67. -/
def checkOptions (nodeId : String) (ids : List String) :
    List RawOption → Except ValidationError (List String)
  | [] => .ok []
  | o :: rest =>
    match o.label, o.next with
    | some lbl, some nx =>
      if nx ∈ ids then
        match checkOptions nodeId ids rest with
        | .error e => .error e
        | .ok tl => .ok (nx :: tl)
      else .error (.optionUnknownNext lbl nodeId nx)
    | _, _ => .error (.optionMissingKeys nodeId)

/-- Per-node type dispatch of `validate` (tree_builder.py lines 45-91):
returns the successor ids this node contributes to the adjacency map. -/
def checkNode (ids : List String) (n : RawNode) :
    Except ValidationError (List String) :=
  let nid := n.id.getD ""
  let ty := n.type.getD ""
  if ty = "question" then
    match n.options with
    | none => .error (.questionOptions nid)
    | some opts =>
      if opts.length < 2 then .error (.questionOptions nid)
      else checkOptions nid ids opts
  else if ty = "step" then
    match n.next with
    | none => .error (.stepMissingNext nid)
    | some nx =>
      if nx = "" then .error (.stepMissingNext nid)
      else if nx ∈ ids then .ok [nx]
      else .error (.stepUnknownNext nid nx)
  else if ty = "resolution" then
    if pyTruthyStr n.next || pyTruthyOpts n.options then
      .error (.resolutionNotTerminal nid)
    else .ok []
  else .error (.unknownType nid ty)

/-- Second loop of `validate`: run the per-node dispatch over the nodes in
order (failing fast) and build the adjacency map as one `(id, successors)`
entry per node; the Python dict maps each id to the concatenation of the
successor lists of all nodes carrying that id, in node order. -/
def buildAdj (ids : List String) :
    List RawNode → Except ValidationError (List (String × List String))
  | [] => .ok []
  | n :: rest =>
    match checkNode ids n with
    | .error e => .error e
    | .ok succs =>
      match buildAdj ids rest with
      | .error e => .error e
      | .ok tl => .ok ((n.id.getD "", succs) :: tl)

/-- Lookup in the adjacency map: concatenation of the successor lists of
all entries keyed by `k`, in entry order. -/
def adjLookup (adjL : List (String × List String)) (k : String) : List String :=
  ((adjL.filter (fun p => p.1 = k)).map (fun p => p.2)).flatten

/-- Total number of successor references stored in the adjacency map; used
as loop fuel for the traversal. -/
def sumAdj (adjL : List (String × List String)) : Nat :=
  (adjL.map (fun p => p.2.length)).sum

/-- Worklist traversal of `validate` (tree_builder.py lines 94-101): pop
from the end of the queue, skip already-visited ids, otherwise mark visited
and enqueue the successors.  The loop is fuelled; `validate` passes fuel
provably large enough for the queue to empty first. -/
def pyDFS (adjL : List (String × List String)) :
    Nat → List String → List String → List String
  | 0, visited, _ => visited
  | fuel + 1, visited, queue =>
    if h : queue = [] then visited
    else if queue.getLast h ∈ visited then
      pyDFS adjL fuel visited queue.dropLast
    else
      pyDFS adjL fuel (queue.getLast h :: visited)
        (queue.dropLast ++ adjLookup adjL (queue.getLast h))

/-- Shallow embedding of `TreeBuilder.validate`: all checks in source
order, failing fast with the first error. -/
def validate (t : RawTree) : Except ValidationError Bool :=
  match t.title with
  | none => .error (.missingKey "title")
  | some _ =>
    match t.nodes with
    | none => .error (.missingKey "nodes")
    | some ns =>
      if ns.isEmpty then .error .emptyNodes
      else
        match collectIds ns with
        | .error e => .error e
        | .ok ids =>
          if "start" ∈ ids then
            match buildAdj ids ns with
            | .error e => .error e
            | .ok adjL =>
              let visited := pyDFS adjL (1 + sumAdj adjL) [] ["start"]
              let unreach :=
                List.insertionSort (fun a b => a ≤ b)
                  (ids.dedup.filter (fun x => decide (x ∉ visited)))
              if unreach.isEmpty then .ok true
              else .error (.unreachable unreach)
          else .error .missingStart

/-- Navigation failures of `TreeEngine`: `ValueError`s raised by
`navigate`/`advance` (one constructor per message shape, carrying the
interpolated data) plus Python `KeyError`s from dict subscripting. -/
inductive NavError where
  | keyError (key : String)
  | notQuestion (nodeId : String)
  | unknownOption (label : String) (nodeId : String)
  | notStep (nodeId : String)
deriving DecidableEq

/-- Python dict insertion: overwrite the value in place when the key is
already present, otherwise append the pair. -/
def dictInsert (m : List (String × RawNode)) (k : String) (v : RawNode) :
    List (String × RawNode) :=
  if m.any (fun p => p.1 = k) then
    m.map (fun p => if p.1 = k then (k, v) else p)
  else m ++ [(k, v)]

/-- The `_nodes` index built by `TreeEngine.__init__`:
`{node["id"]: node for node in nodes}` with dict semantics (first
insertion fixes the position, a later node with the same id overwrites
the value). -/
def indexNodes (ns : List RawNode) : List (String × RawNode) :=
  ns.foldl (fun m n => dictInsert m (n.id.getD "") n) []

/-- Python dict lookup on the ordered association list: the value of the
first (and, by the dict invariant, only) entry with the given key. -/
def dictGet : List (String × RawNode) → String → Option RawNode
  | [], _ => none
  | p :: tl, k => if p.1 = k then some p.2 else dictGet tl k

/-- Mutable session state of a `TreeEngine`: the node index (never
mutated) plus the cursor (`_current_id`, `_history`). -/
structure Engine where
  nodes : List (String × RawNode)
  current : String
  history : List String
deriving DecidableEq

/-- Engine state right after `TreeEngine.__init__` on a tree with the
given `nodes` list. -/
def initEngine (ns : List RawNode) : Engine :=
  { nodes := indexNodes ns, current := "start", history := [] }

/-- Embedding of `TreeEngine.get_current_node`:
`self._nodes[self._current_id]`, a `KeyError` when the id is absent. -/
def getCurrentNode (s : Engine) : Except NavError RawNode :=
  match dictGet s.nodes s.current with
  | some n => .ok n
  | none => .error (.keyError s.current)

/-- Option scan of `TreeEngine.navigate` (tree_engine.py lines 79-87).
Returns the outcome together with the engine state as left by the Python
method, including the partial mutation when `option["next"]` raises after
the history append. -/
def navScan (label : String) (n : RawNode) (s : Engine) :
    List RawOption → Except NavError Unit × Engine
  | [] => (.error (.unknownOption label s.current), s)
  | o :: rest =>
    match o.label with
    | none => (.error (.keyError "label"), s)
    | some l =>
      if l = label then
        match n.text with
        | none => (.error (.keyError "text"), s)
        | some txt =>
          match o.next with
          | none => (.error (.keyError "next"),
                     { s with history := s.history ++ [txt] })
          | some nx => (.ok (),
                        { s with history := s.history ++ [txt], current := nx })
      else navScan label n s rest

/-- Embedding of `TreeEngine.navigate`. -/
def navigate (label : String) (s : Engine) : Except NavError Unit × Engine :=
  match dictGet s.nodes s.current with
  | none => (.error (.keyError s.current), s)
  | some n =>
    match n.type with
    | none => (.error (.keyError "type"), s)
    | some ty =>
      if ty = "question" then navScan label n s (n.options.getD [])
      else (.error (.notQuestion s.current), s)

/-- Embedding of `TreeEngine.advance`. -/
def advance (s : Engine) : Except NavError Unit × Engine :=
  match dictGet s.nodes s.current with
  | none => (.error (.keyError s.current), s)
  | some n =>
    match n.type with
    | none => (.error (.keyError "type"), s)
    | some ty =>
      if ty = "step" then
        match n.text with
        | none => (.error (.keyError "text"), s)
        | some txt =>
          match n.next with
          | none => (.error (.keyError "next"),
                     { s with history := s.history ++ [txt] })
          | some nx => (.ok (),
                        { s with history := s.history ++ [txt], current := nx })
      else (.error (.notStep s.current), s)

/-- Embedding of `TreeEngine.reset`. -/
def reset (s : Engine) : Engine :=
  { s with current := "start", history := [] }

/-- Node scan of `TreeEngine.go_back` (tree_engine.py lines 127-136) over
the `_nodes` items in insertion order; the empty-suffix case is the
fallback that pops and returns to `"start"`. -/
def goScan (target : String) (s : Engine) :
    List (String × RawNode) → Except NavError (Bool × Engine)
  | [] => .ok (true, { s with history := s.history.dropLast, current := "start" })
  | (nid, n) :: rest =>
    match n.text with
    | none => .error (.keyError "text")
    | some t =>
      if t = target then
        .ok (true, { s with history := s.history.dropLast, current := nid })
      else goScan target s rest

/-- Embedding of `TreeEngine.go_back`. -/
def goBack (s : Engine) : Except NavError (Bool × Engine) :=
  match s.history.getLast? with
  | none => .ok (false, s)
  | some target => goScan target s s.nodes

/-- Embedding of `TreeEngine.current_step_number`. -/
def currentStepNumber (s : Engine) : Nat :=
  s.history.length + 1

/-- One session operation, as issued by the viewer UI. -/
inductive Op where
  | getCurrent
  | nav (label : String)
  | adv
  | back
  | resetOp
deriving DecidableEq

/-- Effect of one operation on the session state.  A raised error is
caught by the caller and the session keeps the state the Python object
was left in (mutations before the raise persist). -/
def applyOp (s : Engine) (op : Op) : Engine :=
  match op with
  | .getCurrent => s
  | .nav label => (navigate label s).2
  | .adv => (advance s).2
  | .back =>
    match goBack s with
    | .ok (_, s') => s'
    | .error _ => s
  | .resetOp => reset s

/-- Run a sequence of session operations. -/
def run (ops : List Op) (s : Engine) : Engine :=
  ops.foldl applyOp s

/-- One successful `navigate`/`advance` call (claim C8's notion of a
successful call): the result state when the method returns normally. -/
def navCallStep (c : Op) (s : Engine) : Except NavError Engine :=
  match c with
  | .nav label =>
    match navigate label s with
    | (.ok _, s') => .ok s'
    | (.error e, _) => .error e
  | .adv =>
    match advance s with
    | (.ok _, s') => .ok s'
    | (.error e, _) => .error e
  | _ => .error (.keyError "unsupported")

/-- Run a sequence of `navigate`/`advance` calls, requiring each to
succeed. -/
def runCalls : List Op → Engine → Except NavError Engine
  | [], s => .ok s
  | c :: cs, s =>
    match navCallStep c s with
    | .ok s' => runCalls cs s'
    | .error e => .error e

/-- Successor ids a node declares in the raw tree: the `next` targets of a
question node's options, the `next` of a step node, nothing otherwise.
This is the spec-level reading of the `next`/`option.next` edges. -/
def declaredSuccs (n : RawNode) : List String :=
  if n.type = some "question" then (n.options.getD []).filterMap (fun o => o.next)
  else if n.type = some "step" then n.next.toList
  else []

/-- Directed edge relation of a raw tree document: some node with id `u`
declares `v` as a successor. -/
def treeEdge (ns : List RawNode) (u v : String) : Prop :=
  ∃ n ∈ ns, n.id = some u ∧ v ∈ declaredSuccs n

/-- An id is reachable when a chain of `next`/`option.next` edges leads to
it from `"start"`. -/
def reachableId (ns : List RawNode) (v : String) : Prop :=
  Relation.ReflTransGen (treeEdge ns) "start" v

/-- Number of successor references of adjacency entries whose key is not
yet visited; the queue length plus this quantity bounds the remaining
iterations of the traversal. -/
def sumUnvisited : List (String × List String) → List String → Nat
  | [], _ => 0
  | p :: tl, visited =>
    (if p.1 ∈ visited then 0 else p.2.length) + sumUnvisited tl visited

/-- Demo data: the spec's scenario-5 tree. -/
def optYes : RawOption := { label := some "Yes", next := some "stepA" }

/-- Second option of the demo question node. -/
def optNo : RawOption := { label := some "No", next := some "resEnd" }

/-- Demo question node with id `start`. -/
def nStart : RawNode :=
  { id := some "start", type := some "question", text := some "q?",
    next := none, options := some [optYes, optNo] }

/-- Demo step node. -/
def nStepA : RawNode :=
  { id := some "stepA", type := some "step", text := some "do it",
    next := some "resDone", options := none }

/-- Demo resolution node reached through the step node. -/
def nResDone : RawNode :=
  { id := some "resDone", type := some "resolution", text := some "done",
    next := none, options := none }

/-- Demo resolution node reached through the `No` option. -/
def nResEnd : RawNode :=
  { id := some "resEnd", type := some "resolution", text := some "end",
    next := none, options := none }

/-- Node list of the demo tree. -/
def demoNodes : List RawNode := [nStart, nStepA, nResDone, nResEnd]

/-- The demo tree document. -/
def demoTree : RawTree :=
  { title := some "T", description := none, nodes := some demoNodes }

/-- Engine session loaded with the demo tree. -/
def demoEngine : Engine := initEngine demoNodes

/-- Document with a single node of unknown type and no `start` node. -/
def noStartTree : RawTree :=
  { title := some "T", description := none,
    nodes := some [{ id := some "a", type := some "bogus", text := some "t",
                     next := none, options := none }] }

/-- Resolution node carrying an explicitly empty `options` list. -/
def emptyOptsNode : RawNode :=
  { id := some "start", type := some "resolution", text := some "t",
    next := none, options := some [] }

/-- Document whose start node is a resolution carrying `options: []`. -/
def emptyOptsTree : RawTree :=
  { title := some "T", description := none, nodes := some [emptyOptsNode] }

/-- Document whose start node is a resolution carrying a non-empty `next`. -/
def truthyNextTree : RawTree :=
  { title := some "T", description := none,
    nodes := some [{ id := some "start", type := some "resolution",
                     text := some "t", next := some "x", options := none }] }

/-- The document `{"nodes": []}`. -/
def emptyNodesTree : RawTree :=
  { title := none, description := none, nodes := some [] }

/-- Resolution start node of the unreachable-node demo. -/
def loneStart : RawNode :=
  { id := some "start", type := some "resolution", text := some "s",
    next := none, options := none }

/-- Node unreachable from `start` in the unreachable-node demo. -/
def strandedNode : RawNode :=
  { id := some "zz", type := some "resolution", text := some "u",
    next := none, options := none }

/-- Document with a node unreachable from `start`. -/
def unreachTree : RawTree :=
  { title := some "T", description := none,
    nodes := some [loneStart, strandedNode] }

/-- C3 counterexample: validating `{"nodes": []}` does not cite the
non-empty-nodes rule; the missing-title check fires first. -/
theorem validate_empty_nodes_doc_cites_title :
    validate emptyNodesTree = .error (.missingKey "title") ∧
    validate emptyNodesTree ≠ .error .emptyNodes :=
  ⟨by decide, by decide⟩

/-- C3 (amended): validating `{"nodes": []}` fails citing the missing
required key `title` (checked first); once a `title` is present, an empty
`nodes` list fails citing that `nodes` must be non-empty. -/
theorem validate_empty_nodes_errors :
    validate emptyNodesTree = .error (.missingKey "title") ∧
    ∀ (ti : String) (d : Option String),
      validate { title := some ti, description := d, nodes := some [] } =
        .error .emptyNodes :=
  ⟨by decide, fun _ _ => rfl⟩

/-- C1 counterexample: a document with one node of unknown type and no
`start` node is rejected with the missing-start error, not the per-node
unknown-type error the claimed check order would produce. -/
theorem validate_missing_start_beats_unknown_type :
    validate noStartTree = .error .missingStart ∧
    validate noStartTree ≠ .error (.unknownType "a" "bogus") :=
  ⟨by decide, by decide⟩

/-- C1 (amended): the check that a node with id `start` exists runs before
the per-node type-dispatch checks; every document that passes the
key-presence checks and lacks a `start` id is reported with the
missing-start error, regardless of per-node rule violations. -/
theorem validate_missing_start_before_dispatch (t : RawTree) (ns : List RawNode)
    (ids : List String) (ht : t.title ≠ none) (hn : t.nodes = some ns)
    (hne : ns ≠ []) (hc : collectIds ns = .ok ids) (hs : "start" ∉ ids) :
    validate t = .error .missingStart := by
  obtain ⟨ti, hti⟩ := Option.ne_none_iff_exists'.mp ht
  simp [validate, hti, hn, List.isEmpty_eq_false.mpr hne, hc, hs]

/-- Witness for the amended C1 theorem at the concrete document. -/
theorem validate_missing_start_before_dispatch_witness :
    validate noStartTree = .error .missingStart :=
  validate_missing_start_before_dispatch noStartTree
    [{ id := some "a", type := some "bogus", text := some "t",
       next := none, options := none }]
    ["a"] (by decide) rfl (by decide) (by decide) (by decide)

/-- The option scan of `navigate` never touches the node index. -/
theorem navScan_snd_nodes (label : String) (n : RawNode) (s : Engine)
    (opts : List RawOption) : ((navScan label n s opts).2).nodes = s.nodes := by
  induction opts with
  | nil => rfl
  | cons o rest ih =>
    cases hl : o.label with
    | none => simp [navScan, hl]
    | some l =>
      by_cases h : l = label
      · cases ht : n.text with
        | none => simp [navScan, hl, h, ht]
        | some txt =>
          cases hnx : o.next with
          | none => simp [navScan, hl, h, ht, hnx]
          | some nx => simp [navScan, hl, h, ht, hnx]
      · simp [navScan, hl, h, ih]

/-- `navigate` never touches the node index. -/
theorem navigate_snd_nodes (label : String) (s : Engine) :
    ((navigate label s).2).nodes = s.nodes := by
  unfold navigate
  cases hd : dictGet s.nodes s.current with
  | none => rfl
  | some n =>
    cases htp : n.type with
    | none => simp [htp]
    | some ty =>
      by_cases h : ty = "question"
      · simp [htp, h, navScan_snd_nodes]
      · simp [htp, h]

/-- `advance` never touches the node index. -/
theorem advance_snd_nodes (s : Engine) : ((advance s).2).nodes = s.nodes := by
  unfold advance
  cases hd : dictGet s.nodes s.current with
  | none => rfl
  | some n =>
    cases htp : n.type with
    | none => simp [htp]
    | some ty =>
      by_cases h : ty = "step"
      · cases ht : n.text with
        | none => simp [htp, h, ht]
        | some txt =>
          cases hnx : n.next with
          | none => simp [htp, h, ht, hnx]
          | some nx => simp [htp, h, ht, hnx]
      · simp [htp, h]

/-- A successful scan of `go_back` never touches the node index. -/
theorem goScan_ok_nodes (target : String) (s : Engine)
    (l : List (String × RawNode)) (b : Bool) (s' : Engine)
    (h : goScan target s l = .ok (b, s')) : s'.nodes = s.nodes := by
  induction l with
  | nil =>
    simp [goScan] at h
    simp [← h.2]
  | cons p rest ih =>
    obtain ⟨nid, n⟩ := p
    cases ht : n.text with
    | none => simp [goScan, ht] at h
    | some t =>
      by_cases he : t = target
      · simp [goScan, ht, he] at h
        simp [← h.2]
      · simp [goScan, ht, he] at h
        exact ih h

/-- One session operation never touches the node index. -/
theorem applyOp_nodes (s : Engine) (op : Op) : (applyOp s op).nodes = s.nodes := by
  cases op with
  | getCurrent => rfl
  | nav label => exact navigate_snd_nodes label s
  | adv => exact advance_snd_nodes s
  | back =>
    show (match goBack s with
          | .ok (_, s') => s'
          | .error _ => s).nodes = s.nodes
    cases hl : s.history.getLast? with
    | none => simp [goBack, hl]
    | some target =>
      rw [show goBack s = goScan target s s.nodes from by simp [goBack, hl]]
      cases hr : goScan target s s.nodes with
      | error e => rfl
      | ok r =>
        obtain ⟨b, s'⟩ := r
        exact goScan_ok_nodes target s s.nodes b s' hr
  | resetOp => rfl

/-- Running any operation sequence never touches the node index. -/
theorem run_nodes (ops : List Op) (s : Engine) : (run ops s).nodes = s.nodes := by
  induction ops generalizing s with
  | nil => rfl
  | cons op ops ih =>
    show (run ops (applyOp s op)).nodes = s.nodes
    rw [ih, applyOp_nodes]

/-- C7: after any sequence of session operations, `reset` restores exactly
the engine's initial state: `currentId = "start"` and empty history. -/
theorem reset_restores_initial_state (ns : List RawNode) (ops : List Op) :
    reset (run ops (initEngine ns)) = initEngine ns := by
  show Engine.mk (run ops (initEngine ns)).nodes "start" [] = initEngine ns
  rw [run_nodes]
  rfl

/-- Error inventory of the option scan: a failing scan either reports the
unknown-option error with the state untouched, or a `KeyError`. -/
theorem navScan_error_inv (label : String) (n : RawNode) (s : Engine)
    (opts : List RawOption) (e : NavError) (s' : Engine)
    (h : navScan label n s opts = (.error e, s')) :
    (e = .unknownOption label s.current ∧ s' = s) ∨ ∃ k, e = .keyError k := by
  induction opts with
  | nil =>
    simp [navScan] at h
    exact .inl ⟨h.1.symm, h.2.symm⟩
  | cons o rest ih =>
    cases hl : o.label with
    | none =>
      simp [navScan, hl] at h
      exact .inr ⟨"label", h.1.symm⟩
    | some l =>
      by_cases hq : l = label
      · cases ht : n.text with
        | none =>
          simp [navScan, hl, hq, ht] at h
          exact .inr ⟨"text", h.1.symm⟩
        | some txt =>
          cases hnx : o.next with
          | none =>
            simp [navScan, hl, hq, ht, hnx] at h
            exact .inr ⟨"next", h.1.symm⟩
          | some nx => simp [navScan, hl, hq, ht, hnx] at h
      · simp only [navScan, hl] at h
        rw [if_neg hq] at h
        exact ih h

/-- C10: `navigate` and `advance` are atomic on their documented failure
modes: a non-question (resp. non-step) current node or an unmatched option
label leaves both `currentId` and `history` exactly as they were. -/
theorem navigate_advance_atomic_on_error :
    (∀ (s : Engine) (label i : String) (s' : Engine),
        navigate label s = (.error (.notQuestion i), s') → s' = s) ∧
    (∀ (s : Engine) (label l i : String) (s' : Engine),
        navigate label s = (.error (.unknownOption l i), s') → s' = s) ∧
    (∀ (s : Engine) (i : String) (s' : Engine),
        advance s = (.error (.notStep i), s') → s' = s) := by
  refine ⟨?_, ?_, ?_⟩
  · intro s label i s' h
    unfold navigate at h
    cases hd : dictGet s.nodes s.current with
    | none => simp only [hd] at h; simp at h
    | some n =>
      simp only [hd] at h
      cases htp : n.type with
      | none => simp only [htp] at h; simp at h
      | some ty =>
        simp only [htp] at h
        by_cases hq : ty = "question"
        · rw [if_pos hq] at h
          rcases navScan_error_inv _ _ _ _ _ _ h with ⟨he, _⟩ | ⟨k, he⟩ <;> simp at he
        · rw [if_neg hq] at h
          simp at h
          exact h.2.symm
  · intro s label l i s' h
    unfold navigate at h
    cases hd : dictGet s.nodes s.current with
    | none => simp only [hd] at h; simp at h
    | some n =>
      simp only [hd] at h
      cases htp : n.type with
      | none => simp only [htp] at h; simp at h
      | some ty =>
        simp only [htp] at h
        by_cases hq : ty = "question"
        · rw [if_pos hq] at h
          rcases navScan_error_inv _ _ _ _ _ _ h with ⟨_, hs⟩ | ⟨k, he⟩
          · exact hs
          · simp at he
        · rw [if_neg hq] at h
          simp at h
  · intro s i s' h
    unfold advance at h
    cases hd : dictGet s.nodes s.current with
    | none => simp only [hd] at h; simp at h
    | some n =>
      simp only [hd] at h
      cases htp : n.type with
      | none => simp only [htp] at h; simp at h
      | some ty =>
        simp only [htp] at h
        by_cases hq : ty = "step"
        · rw [if_pos hq] at h
          cases ht : n.text with
          | none => simp only [ht] at h; simp at h
          | some txt =>
            simp only [ht] at h
            cases hnx : n.next with
            | none => simp only [hnx] at h; simp at h
            | some nx => simp only [hnx] at h; simp at h
        · rw [if_neg hq] at h
          simp at h
          exact h.2.symm

/-- Witness for C10 at concrete failing calls on the demo engine. -/
theorem navigate_advance_atomic_on_error_witness :
    (navigate "Yes" (run [.nav "Yes", .adv] demoEngine)).2 =
      run [.nav "Yes", .adv] demoEngine ∧
    (navigate "Nope" demoEngine).2 = demoEngine ∧
    (advance demoEngine).2 = demoEngine :=
  ⟨navigate_advance_atomic_on_error.1 _ "Yes" "resDone" _ (by decide),
   navigate_advance_atomic_on_error.2.1 _ "Nope" "Nope" "start" _ (by decide),
   navigate_advance_atomic_on_error.2.2 _ "start" _ (by decide)⟩

/-- Scan hitting the first matching option: every earlier option has a
present, non-matching label, the match has text and target present. -/
theorem navScan_found (label : String) (n : RawNode) (s : Engine)
    (pre post : List RawOption) (o : RawOption) (txt nx : String)
    (hpre : ∀ p ∈ pre, p.label ≠ none ∧ p.label ≠ some label)
    (hol : o.label = some label) (ht : n.text = some txt)
    (hnx : o.next = some nx) :
    navScan label n s (pre ++ o :: post) =
      (.ok (), { s with history := s.history ++ [txt], current := nx }) := by
  induction pre with
  | nil => simp [navScan, hol, ht, hnx]
  | cons p pre ih =>
    obtain ⟨h1, h2⟩ := hpre p (List.mem_cons_self p pre)
    obtain ⟨pl, hpl⟩ := Option.ne_none_iff_exists'.mp h1
    have hne : pl ≠ label := fun he => h2 (by rw [hpl, he])
    simp only [List.cons_append, navScan, hpl]
    rw [if_neg hne]
    exact ih fun q hq => hpre q (List.mem_cons_of_mem p hq)

/-- Scan finding no matching label: every option has a present,
non-matching label. -/
theorem navScan_nomatch (label : String) (n : RawNode) (s : Engine)
    (opts : List RawOption)
    (h : ∀ p ∈ opts, p.label ≠ none ∧ p.label ≠ some label) :
    navScan label n s opts = (.error (.unknownOption label s.current), s) := by
  induction opts with
  | nil => rfl
  | cons p rest ih =>
    obtain ⟨h1, h2⟩ := h p (List.mem_cons_self p rest)
    obtain ⟨pl, hpl⟩ := Option.ne_none_iff_exists'.mp h1
    have hne : pl ≠ label := fun he => h2 (by rw [hpl, he])
    simp only [navScan, hpl]
    rw [if_neg hne]
    exact ih fun q hq => h q (List.mem_cons_of_mem p hq)

/-- C5: `navigate` on a question node selects the first option in stored
order whose label equals the argument exactly, pushes the current node's
text and moves the cursor to the option's target; an unmatched label fails
with the unknown-option error and a non-question node fails with the
invalid-state error, both leaving the state unchanged. -/
theorem navigate_spec :
    (∀ (s : Engine) (n : RawNode) (ty label : String),
        dictGet s.nodes s.current = some n → n.type = some ty →
        ty ≠ "question" →
        navigate label s = (.error (.notQuestion s.current), s)) ∧
    (∀ (s : Engine) (n : RawNode) (label txt nx : String)
        (pre post : List RawOption) (o : RawOption),
        dictGet s.nodes s.current = some n → n.type = some "question" →
        n.options.getD [] = pre ++ o :: post →
        (∀ p ∈ pre, p.label ≠ none ∧ p.label ≠ some label) →
        o.label = some label → n.text = some txt → o.next = some nx →
        navigate label s =
          (.ok (), { s with history := s.history ++ [txt], current := nx })) ∧
    (∀ (s : Engine) (n : RawNode) (label : String),
        dictGet s.nodes s.current = some n → n.type = some "question" →
        (∀ p ∈ n.options.getD [], p.label ≠ none ∧ p.label ≠ some label) →
        navigate label s = (.error (.unknownOption label s.current), s)) := by
  refine ⟨?_, ?_, ?_⟩
  · intro s n ty label hd htp hq
    unfold navigate
    simp only [hd, htp]
    rw [if_neg hq]
  · intro s n label txt nx pre post o hd htp hopts hpre hol ht hnx
    unfold navigate
    simp only [hd, htp, if_true]
    rw [hopts]
    exact navScan_found label n s pre post o txt nx hpre hol ht hnx
  · intro s n label hd htp hall
    unfold navigate
    simp only [hd, htp, if_true]
    exact navScan_nomatch label n s (n.options.getD []) hall

/-- Witness for C5 on the demo engine: invalid-state error at a
resolution node, successful first-match navigation, unknown-option
error. -/
theorem navigate_spec_witness :
    navigate "x" (Engine.mk (indexNodes demoNodes) "resDone" []) =
      (.error (.notQuestion "resDone"),
       Engine.mk (indexNodes demoNodes) "resDone" []) ∧
    navigate "No" demoEngine =
      (.ok (), Engine.mk (indexNodes demoNodes) "resEnd" ["q?"]) ∧
    navigate "Nope" demoEngine =
      (.error (.unknownOption "Nope" "start"), demoEngine) :=
  ⟨navigate_spec.1 (Engine.mk (indexNodes demoNodes) "resDone" []) nResDone
      "resolution" "x" (by decide) rfl (by decide),
   navigate_spec.2.1 demoEngine nStart "No" "q?" "resEnd" [optYes] [] optNo
      (by decide) rfl rfl (by decide) rfl rfl rfl,
   navigate_spec.2.2 demoEngine nStart "Nope" (by decide) rfl (by decide)⟩

/-- Scan of `go_back` hitting the first node whose text matches. -/
theorem goScan_found (target : String) (s : Engine)
    (pre post : List (String × RawNode)) (nid : String) (n : RawNode)
    (hpre : ∀ p ∈ pre, p.2.text ≠ none ∧ p.2.text ≠ some target)
    (hn : n.text = some target) :
    goScan target s (pre ++ (nid, n) :: post) =
      .ok (true, { s with history := s.history.dropLast, current := nid }) := by
  induction pre with
  | nil => simp [goScan, hn]
  | cons p pre ih =>
    obtain ⟨pid, pn⟩ := p
    have h1 : pn.text ≠ none := (hpre (pid, pn) (List.mem_cons_self _ _)).1
    have h2 : pn.text ≠ some target := (hpre (pid, pn) (List.mem_cons_self _ _)).2
    obtain ⟨pt, hpt⟩ := Option.ne_none_iff_exists'.mp h1
    have hne : pt ≠ target := fun he => h2 (by rw [hpt, he])
    simp only [List.cons_append, goScan, hpt]
    rw [if_neg hne]
    exact ih fun q hq => hpre q (List.mem_cons_of_mem _ hq)

/-- Scan of `go_back` finding no node whose text matches: the fallback
pops and returns to `start`. -/
theorem goScan_nomatch (target : String) (s : Engine)
    (l : List (String × RawNode))
    (h : ∀ p ∈ l, p.2.text ≠ none ∧ p.2.text ≠ some target) :
    goScan target s l =
      .ok (true, { s with history := s.history.dropLast, current := "start" }) := by
  induction l with
  | nil => rfl
  | cons p rest ih =>
    obtain ⟨pid, pn⟩ := p
    have h1 : pn.text ≠ none := (h (pid, pn) (List.mem_cons_self _ _)).1
    have h2 : pn.text ≠ some target := (h (pid, pn) (List.mem_cons_self _ _)).2
    obtain ⟨pt, hpt⟩ := Option.ne_none_iff_exists'.mp h1
    have hne : pt ≠ target := fun he => h2 (by rw [hpt, he])
    simp only [goScan, hpt]
    rw [if_neg hne]
    exact ih fun q hq => h q (List.mem_cons_of_mem _ hq)

/-- C4: `goBack` on an empty history is a no-op returning `false`;
otherwise it pops the last history entry and moves the cursor to the first
node in stored insertion order whose text equals that entry, returning
`true`; with no matching text it still pops and falls back to `start`,
returning `true`. -/
theorem goBack_spec :
    (∀ s : Engine, s.history = [] → goBack s = .ok (false, s)) ∧
    (∀ (s : Engine) (target nid : String) (n : RawNode)
        (pre post : List (String × RawNode)),
        s.history.getLast? = some target →
        s.nodes = pre ++ (nid, n) :: post →
        (∀ p ∈ pre, p.2.text ≠ none ∧ p.2.text ≠ some target) →
        n.text = some target →
        goBack s =
          .ok (true, { s with history := s.history.dropLast, current := nid })) ∧
    (∀ (s : Engine) (target : String),
        s.history.getLast? = some target →
        (∀ p ∈ s.nodes, p.2.text ≠ none ∧ p.2.text ≠ some target) →
        goBack s =
          .ok (true, { s with history := s.history.dropLast, current := "start" })) := by
  refine ⟨?_, ?_, ?_⟩
  · intro s h
    unfold goBack
    simp [h]
  · intro s target nid n pre post hl hnodes hpre hn
    unfold goBack
    simp only [hl]
    have h := goScan_found target s pre post nid n hpre hn
    rw [← hnodes] at h
    exact h
  · intro s target hl hall
    unfold goBack
    simp only [hl]
    exact goScan_nomatch target s s.nodes hall

/-- Witness for C4 on the demo engine: empty history, text-keyed match on
the step node, and the missing-text fallback. -/
theorem goBack_spec_witness :
    goBack demoEngine = .ok (false, demoEngine) ∧
    goBack (Engine.mk (indexNodes demoNodes) "resDone" ["q?", "do it"]) =
      .ok (true, Engine.mk (indexNodes demoNodes) "stepA" ["q?"]) ∧
    goBack (Engine.mk (indexNodes demoNodes) "start" ["nope"]) =
      .ok (true, Engine.mk (indexNodes demoNodes) "start" []) :=
  ⟨goBack_spec.1 demoEngine rfl,
   goBack_spec.2.1 (Engine.mk (indexNodes demoNodes) "resDone" ["q?", "do it"])
      "do it" "stepA" nStepA [("start", nStart)]
      [("resDone", nResDone), ("resEnd", nResEnd)] (by decide) (by decide)
      (by decide) rfl,
   goBack_spec.2.2 (Engine.mk (indexNodes demoNodes) "start" ["nope"]) "nope"
      (by decide) (by decide)⟩

/-- A successful option scan appends exactly the current node's text to
the history. -/
theorem navScan_ok_history (label : String) (n : RawNode) (s : Engine)
    (opts : List RawOption) (u : Unit) (s' : Engine)
    (h : navScan label n s opts = (.ok u, s')) :
    ∃ txt, s'.history = s.history ++ [txt] := by
  induction opts with
  | nil => simp [navScan] at h
  | cons o rest ih =>
    cases hl : o.label with
    | none => simp [navScan, hl] at h
    | some l =>
      by_cases hq : l = label
      · cases ht : n.text with
        | none => simp [navScan, hl, hq, ht] at h
        | some txt =>
          cases hnx : o.next with
          | none => simp [navScan, hl, hq, ht, hnx] at h
          | some nx =>
            simp [navScan, hl, hq, ht, hnx] at h
            exact ⟨txt, by rw [← h]⟩
      · simp only [navScan, hl] at h
        rw [if_neg hq] at h
        exact ih h

/-- A successful `navigate` appends exactly one history entry. -/
theorem navigate_ok_history (label : String) (s : Engine) (u : Unit)
    (s' : Engine) (h : navigate label s = (.ok u, s')) :
    ∃ txt, s'.history = s.history ++ [txt] := by
  unfold navigate at h
  cases hd : dictGet s.nodes s.current with
  | none => simp only [hd] at h; simp at h
  | some n =>
    simp only [hd] at h
    cases htp : n.type with
    | none => simp only [htp] at h; simp at h
    | some ty =>
      simp only [htp] at h
      by_cases hq : ty = "question"
      · rw [if_pos hq] at h
        exact navScan_ok_history label n s (n.options.getD []) u s' h
      · rw [if_neg hq] at h
        simp at h

/-- A successful `advance` appends exactly one history entry. -/
theorem advance_ok_history (s : Engine) (u : Unit) (s' : Engine)
    (h : advance s = (.ok u, s')) :
    ∃ txt, s'.history = s.history ++ [txt] := by
  unfold advance at h
  cases hd : dictGet s.nodes s.current with
  | none => simp only [hd] at h; simp at h
  | some n =>
    simp only [hd] at h
    cases htp : n.type with
    | none => simp only [htp] at h; simp at h
    | some ty =>
      simp only [htp] at h
      by_cases hq : ty = "step"
      · rw [if_pos hq] at h
        cases ht : n.text with
        | none => simp only [ht] at h; simp at h
        | some txt =>
          simp only [ht] at h
          cases hnx : n.next with
          | none => simp only [hnx] at h; simp at h
          | some nx =>
            simp only [hnx] at h
            simp at h
            exact ⟨txt, by rw [← h]⟩
      · rw [if_neg hq] at h
        simp at h

/-- Each successful `navigate`/`advance` call grows the history by one. -/
theorem navCallStep_history (c : Op) (s s' : Engine)
    (h : navCallStep c s = .ok s') :
    s'.history.length = s.history.length + 1 := by
  cases c with
  | nav label =>
    unfold navCallStep at h
    cases hr : navigate label s with
    | mk r s2 =>
      cases r with
      | ok u =>
        simp only [hr] at h
        obtain ⟨txt, htxt⟩ :=
          navigate_ok_history label s u s2 (by rw [hr])
        injection h with h2
        rw [← h2, htxt]
        simp
      | error e => simp only [hr] at h; simp at h
  | adv =>
    unfold navCallStep at h
    cases hr : advance s with
    | mk r s2 =>
      cases r with
      | ok u =>
        simp only [hr] at h
        obtain ⟨txt, htxt⟩ := advance_ok_history s u s2 (by rw [hr])
        injection h with h2
        rw [← h2, htxt]
        simp
      | error e => simp only [hr] at h; simp at h
  | getCurrent => simp [navCallStep] at h
  | back => simp [navCallStep] at h
  | resetOp => simp [navCallStep] at h

/-- A successful call sequence grows the history by its length. -/
theorem runCalls_history (cs : List Op) (s s' : Engine)
    (h : runCalls cs s = .ok s') :
    s'.history.length = s.history.length + cs.length := by
  induction cs generalizing s with
  | nil => simp [runCalls] at h; simp [← h]
  | cons c cs ih =>
    unfold runCalls at h
    cases hc : navCallStep c s with
    | ok s2 =>
      simp only [hc] at h
      rw [ih s2 h, navCallStep_history c s s2 hc]
      simp [Nat.add_comm, Nat.add_assoc]
      omega
    | error e => simp only [hc] at h; simp at h

/-- C8: starting from the initial state, after `n` successful
`navigate`/`advance` calls and no `goBack`, `currentStepNumber` returns
`n + 1`. -/
theorem step_number_counts_successful_calls (ns : List RawNode)
    (calls : List Op) (s' : Engine)
    (h : runCalls calls (initEngine ns) = .ok s') :
    currentStepNumber s' = calls.length + 1 := by
  have hl := runCalls_history calls (initEngine ns) s' h
  unfold currentStepNumber
  rw [hl]
  simp [initEngine]

/-- Witness for C8: two successful calls on the demo engine give step
number three. -/
theorem step_number_counts_successful_calls_witness :
    currentStepNumber (Engine.mk (indexNodes demoNodes) "resDone" ["q?", "do it"]) = 3 :=
  step_number_counts_successful_calls demoNodes [.nav "Yes", .adv]
    (Engine.mk (indexNodes demoNodes) "resDone" ["q?", "do it"]) (by decide)

/-- C2 counterexample: a resolution node carrying an explicitly empty
`options` list is accepted by `validate` — the terminal-node check tests
Python truthiness, and `[]` is falsy. -/
theorem validate_accepts_empty_options_resolution :
    emptyOptsTree.nodes = some [emptyOptsNode] ∧
    emptyOptsNode.type = some "resolution" ∧
    emptyOptsNode.options = some [] ∧
    validate emptyOptsTree = .ok true :=
  ⟨rfl, rfl, rfl, by decide⟩

/-- The dispatch loop fails fast: with every earlier node passing its
check, the first failing node's error is the loop's error. -/
theorem buildAdj_append_error (ids : List String) (pre post : List RawNode)
    (n : RawNode) (e : ValidationError)
    (hpre : ∀ m ∈ pre, ∃ ss, checkNode ids m = .ok ss)
    (he : checkNode ids n = .error e) :
    buildAdj ids (pre ++ n :: post) = .error e := by
  induction pre with
  | nil => simp [buildAdj, he]
  | cons m pre ih =>
    obtain ⟨ss, hss⟩ := hpre m (List.mem_cons_self _ _)
    simp [List.cons_append, buildAdj, hss,
      ih fun q hq => hpre q (List.mem_cons_of_mem _ hq)]

/-- When the earlier phases pass, a dispatch-loop error is the result of
`validate`. -/
theorem validate_dispatch_error (t : RawTree) (ns : List RawNode)
    (ids : List String) (e : ValidationError) (ht : t.title ≠ none)
    (hn : t.nodes = some ns) (hne : ns ≠ [])
    (hc : collectIds ns = .ok ids) (hs : "start" ∈ ids)
    (hb : buildAdj ids ns = .error e) : validate t = .error e := by
  obtain ⟨ti, hti⟩ := Option.ne_none_iff_exists'.mp ht
  simp [validate, hti, hn, List.isEmpty_eq_false.mpr hne, hc, hs, hb]

/-- C2 (amended): a resolution node whose `next` or `options` value is
truthy (non-empty string, non-empty list) and that is the first rule
violation in check order makes `validate` fail with the terminal-node
error for that node's id; a resolution node whose `next`/`options` are
absent, an empty string or an empty list passes the terminal check. -/
theorem validate_resolution_truthy_fields_fail :
    (∀ (t : RawTree) (ids : List String) (pre post : List RawNode)
        (n : RawNode) (nid : String),
        t.title ≠ none → t.nodes = some (pre ++ n :: post) →
        collectIds (pre ++ n :: post) = .ok ids → "start" ∈ ids →
        (∀ m ∈ pre, ∃ ss, checkNode ids m = .ok ss) →
        n.id = some nid → n.type = some "resolution" →
        (pyTruthyStr n.next || pyTruthyOpts n.options) = true →
        validate t = .error (.resolutionNotTerminal nid)) ∧
    (∀ (ids : List String) (n : RawNode),
        n.type = some "resolution" → pyTruthyStr n.next = false →
        pyTruthyOpts n.options = false → checkNode ids n = .ok []) := by
  constructor
  · intro t ids pre post n nid ht hn hc hs hpre hid htp htr
    have hck : checkNode ids n = .error (.resolutionNotTerminal nid) := by
      simp [checkNode, hid, htp, htr]
    exact validate_dispatch_error t (pre ++ n :: post) ids _ ht hn
      (List.append_ne_nil_of_right_ne_nil pre (List.cons_ne_nil n post)) hc hs
      (buildAdj_append_error ids pre post n _ hpre hck)
  · intro ids n htp h1 h2
    simp [checkNode, htp, h1, h2]

/-- Witness for the amended C2 theorem: truthy `next` on a resolution
start node is rejected; the empty-options resolution node passes the
terminal check. -/
theorem validate_resolution_truthy_fields_fail_witness :
    validate truthyNextTree = .error (.resolutionNotTerminal "start") ∧
    checkNode ["start"] emptyOptsNode = .ok [] :=
  ⟨validate_resolution_truthy_fields_fail.1 truthyNextTree ["start"] [] []
      { id := some "start", type := some "resolution", text := some "t",
        next := some "x", options := none }
      "start" (by decide) rfl (by decide) (by decide)
      (fun m hm => absurd hm (List.not_mem_nil m)) rfl rfl (by decide),
   validate_resolution_truthy_fields_fail.2 ["start"] emptyOptsNode rfl
      (by decide) (by decide)⟩

/-- Lookup distributes over a cons of the adjacency list. -/
theorem adjLookup_cons (k : String) (ss : List String)
    (tl : List (String × List String)) (u : String) :
    adjLookup ((k, ss) :: tl) u =
      if k = u then ss ++ adjLookup tl u else adjLookup tl u := by
  by_cases hk : k = u
  · simp [adjLookup, List.filter_cons, hk]
  · simp [adjLookup, List.filter_cons, hk]

/-- With no visited ids, the unvisited successor count is the whole
adjacency size. -/
theorem sumUnvisited_nil (adjL : List (String × List String)) :
    sumUnvisited adjL [] = sumAdj adjL := by
  induction adjL with
  | nil => rfl
  | cons p tl ih => simp [sumUnvisited, sumAdj, ih]

/-- Marking a fresh id as visited removes exactly its successor count. -/
theorem sumUnvisited_insert (adjL : List (String × List String))
    (visited : List String) (current : String) (hcv : current ∉ visited) :
    sumUnvisited adjL visited =
      sumUnvisited adjL (current :: visited) + (adjLookup adjL current).length := by
  induction adjL with
  | nil => simp [sumUnvisited, adjLookup]
  | cons p tl ih =>
    obtain ⟨k, ss⟩ := p
    rw [adjLookup_cons]
    by_cases hk : k = current
    · subst hk
      simp [sumUnvisited, hcv, List.mem_cons]
      omega
    · by_cases hv : k ∈ visited
      · simp [sumUnvisited, hv, List.mem_cons, hk, if_neg hk]
        omega
      · have hv2 : k ∉ (current :: visited) := by
          simp [List.mem_cons, hk, hv]
        simp [sumUnvisited, hv, hv2, if_neg hk]
        omega

/-- Everything initially visited or ever queued lands in the traversal
result, provided the fuel dominates the loop's iteration bound. -/
theorem pyDFS_mem (adjL : List (String × List String)) (fuel : Nat)
    (visited queue : List String)
    (hfuel : queue.length + sumUnvisited adjL visited ≤ fuel)
    (x : String) (hx : x ∈ visited ∨ x ∈ queue) :
    x ∈ pyDFS adjL fuel visited queue := by
  induction fuel generalizing visited queue with
  | zero =>
    have hq : queue = [] := by
      cases queue with
      | nil => rfl
      | cons a l => simp [List.length_cons] at hfuel
    subst hq
    rcases hx with h | h
    · exact h
    · simp at h
  | succ fuel ih =>
    by_cases hq : queue = []
    · subst hq
      rcases hx with h | h
      · simpa [pyDFS] using h
      · simp at h
    · have hqr : queue.dropLast ++ [queue.getLast hq] = queue :=
        List.dropLast_append_getLast hq
      have hlen : queue.dropLast.length + 1 = queue.length := by
        conv_rhs => rw [← hqr]
        simp
      simp only [pyDFS]
      rw [dif_neg hq]
      by_cases hc : queue.getLast hq ∈ visited
      · rw [if_pos hc]
        apply ih
        · omega
        · rcases hx with h | h
          · exact .inl h
          · rw [← hqr] at h
            rcases List.mem_append.mp h with h | h
            · exact .inr h
            · simp at h
              exact .inl (h ▸ hc)
      · rw [if_neg hc]
        apply ih
        · rw [List.length_append]
          have hins := sumUnvisited_insert adjL visited (queue.getLast hq) hc
          omega
        · rcases hx with h | h
          · exact .inl (List.mem_cons_of_mem _ h)
          · rw [← hqr] at h
            rcases List.mem_append.mp h with h | h
            · exact .inr (List.mem_append_left _ h)
            · simp at h
              exact .inl (h ▸ List.mem_cons_self _ _)

/-- The traversal result is closed under adjacency, given the invariant
that every visited id's successors are visited or queued. -/
theorem pyDFS_closed (adjL : List (String × List String)) (fuel : Nat)
    (visited queue : List String)
    (hfuel : queue.length + sumUnvisited adjL visited ≤ fuel)
    (hgood : ∀ v ∈ visited, ∀ w ∈ adjLookup adjL v, w ∈ visited ∨ w ∈ queue) :
    ∀ v ∈ pyDFS adjL fuel visited queue, ∀ w ∈ adjLookup adjL v,
      w ∈ pyDFS adjL fuel visited queue := by
  induction fuel generalizing visited queue with
  | zero =>
    have hq : queue = [] := by
      cases queue with
      | nil => rfl
      | cons a l => simp [List.length_cons] at hfuel
    subst hq
    intro v hv w hw
    rcases hgood v hv w hw with h | h
    · exact h
    · simp at h
  | succ fuel ih =>
    by_cases hq : queue = []
    · subst hq
      have heq : pyDFS adjL (fuel + 1) visited [] = visited := by simp [pyDFS]
      rw [heq]
      intro v hv w hw
      rcases hgood v hv w hw with h | h
      · exact h
      · simp at h
    · have hqr : queue.dropLast ++ [queue.getLast hq] = queue :=
        List.dropLast_append_getLast hq
      have hlen : queue.dropLast.length + 1 = queue.length := by
        conv_rhs => rw [← hqr]
        simp
      have hstep : pyDFS adjL (fuel + 1) visited queue =
          if queue.getLast hq ∈ visited then
            pyDFS adjL fuel visited queue.dropLast
          else
            pyDFS adjL fuel (queue.getLast hq :: visited)
              (queue.dropLast ++ adjLookup adjL (queue.getLast hq)) := by
        simp only [pyDFS]
        rw [dif_neg hq]
      rw [hstep]
      by_cases hc : queue.getLast hq ∈ visited
      · rw [if_pos hc]
        apply ih
        · omega
        · intro v hv w hw
          rcases hgood v hv w hw with h | h
          · exact .inl h
          · rw [← hqr] at h
            rcases List.mem_append.mp h with h | h
            · exact .inr h
            · simp at h
              exact .inl (h ▸ hc)
      · rw [if_neg hc]
        apply ih
        · rw [List.length_append]
          have hins := sumUnvisited_insert adjL visited (queue.getLast hq) hc
          omega
        · intro v hv w hw
          rcases List.mem_cons.mp hv with hv | hv
          · subst hv
            exact .inr (List.mem_append_right _ hw)
          · rcases hgood v hv w hw with h | h
            · exact .inl (List.mem_cons_of_mem _ h)
            · rw [← hqr] at h
              rcases List.mem_append.mp h with h | h
              · exact .inr (List.mem_append_left _ h)
              · simp at h
                exact .inl (h ▸ List.mem_cons_self _ _)

/-- Everything in the traversal result is covered by any property holding
on the initial visited and queued ids and preserved along adjacency. -/
theorem pyDFS_sound (adjL : List (String × List String)) (fuel : Nat)
    (visited queue : List String) (R : String → Prop)
    (hv : ∀ v ∈ visited, R v) (hq : ∀ v ∈ queue, R v)
    (hstep : ∀ u v, R u → v ∈ adjLookup adjL u → R v) :
    ∀ x ∈ pyDFS adjL fuel visited queue, R x := by
  induction fuel generalizing visited queue with
  | zero => exact hv
  | succ fuel ih =>
    by_cases hqe : queue = []
    · subst hqe
      have heq : pyDFS adjL (fuel + 1) visited [] = visited := by simp [pyDFS]
      rw [heq]
      exact hv
    · have hqr : queue.dropLast ++ [queue.getLast hqe] = queue :=
        List.dropLast_append_getLast hqe
      have hstep1 : pyDFS adjL (fuel + 1) visited queue =
          if queue.getLast hqe ∈ visited then
            pyDFS adjL fuel visited queue.dropLast
          else
            pyDFS adjL fuel (queue.getLast hqe :: visited)
              (queue.dropLast ++ adjLookup adjL (queue.getLast hqe)) := by
        simp only [pyDFS]
        rw [dif_neg hqe]
      rw [hstep1]
      have hRcur : R (queue.getLast hqe) := hq _ (List.getLast_mem hqe)
      by_cases hc : queue.getLast hqe ∈ visited
      · rw [if_pos hc]
        apply ih visited queue.dropLast hv
        intro v hvq
        exact hq v (by rw [← hqr]; exact List.mem_append_left _ hvq)
      · rw [if_neg hc]
        apply ih
        · intro v hv2
          rcases List.mem_cons.mp hv2 with hv2 | hv2
          · exact hv2 ▸ hRcur
          · exact hv v hv2
        · intro v hv2
          rcases List.mem_append.mp hv2 with hv2 | hv2
          · exact hq v (by rw [← hqr]; exact List.mem_append_left _ hv2)
          · exact hstep _ v hRcur hv2

/-- A defaulted read equal to a non-empty string pins the option. -/
theorem getD_eq_strict (o : Option String) (s : String) (hs : ¬s = "")
    (h : o.getD "" = s) : o = some s := by
  cases o with
  | none => simp at h; exact absurd h.symm hs
  | some v => simp at h; rw [h]

/-- Inversion of the key-collection loop: the ids are the nodes' ids in
order, and every node carries `id`, `type` and `text`. -/
theorem collectIds_ok (ns : List RawNode) (ids : List String)
    (h : collectIds ns = .ok ids) :
    ids = ns.map (fun n => n.id.getD "") ∧
    ∀ n ∈ ns, n.id ≠ none ∧ n.type ≠ none ∧ n.text ≠ none := by
  induction ns generalizing ids with
  | nil =>
    simp [collectIds] at h
    simp [← h]
  | cons n rest ih =>
    unfold collectIds at h
    cases hid : n.id with
    | none => simp [hid] at h
    | some i =>
      simp only [hid] at h
      cases htp : n.type with
      | none => simp [htp] at h
      | some ty =>
        simp only [htp] at h
        cases htx : n.text with
        | none => simp [htx] at h
        | some tx =>
          simp only [htx] at h
          cases hr : collectIds rest with
          | error e => simp [hr] at h
          | ok ids2 =>
            simp only [hr] at h
            injection h with h2
            obtain ⟨hmap, hall⟩ := ih ids2 hr
            constructor
            · rw [← h2, hmap]
              simp [hid]
            · intro m hm
              rcases List.mem_cons.mp hm with hm | hm
              · subst hm
                exact ⟨by simp [hid], by simp [htp], by simp [htx]⟩
              · exact hall m hm

/-- Inversion of the option-check loop: the collected targets are the
options' `next` fields in order, all present, labelled, and known ids. -/
theorem checkOptions_ok (nid : String) (ids : List String)
    (opts : List RawOption) (tl : List String)
    (h : checkOptions nid ids opts = .ok tl) :
    tl = opts.filterMap (fun o => o.next) ∧
    ∀ o ∈ opts, o.label ≠ none ∧ ∃ nx, o.next = some nx ∧ nx ∈ ids := by
  induction opts generalizing tl with
  | nil =>
    simp [checkOptions] at h
    simp [← h]
  | cons o rest ih =>
    unfold checkOptions at h
    cases hl : o.label with
    | none => simp [hl] at h
    | some lbl =>
      cases hnx : o.next with
      | none => simp [hl, hnx] at h
      | some nx =>
        simp only [hl, hnx] at h
        by_cases hm : nx ∈ ids
        · rw [if_pos hm] at h
          cases hr : checkOptions nid ids rest with
          | error e => simp [hr] at h
          | ok tl2 =>
            simp only [hr] at h
            injection h with h2
            obtain ⟨hmap, hall⟩ := ih tl2 hr
            constructor
            · rw [← h2, hmap]
              simp [List.filterMap_cons, hnx]
            · intro q hq
              rcases List.mem_cons.mp hq with hq | hq
              · subst hq
                exact ⟨by simp [hl], nx, hnx, hm⟩
              · exact hall q hq
        · rw [if_neg hm] at h
          simp at h

/-- Inversion of the per-node dispatch: a passing node's collected
successors are exactly its declared successors, all of them known ids. -/
theorem checkNode_ok (ids : List String) (n : RawNode) (ss : List String)
    (h : checkNode ids n = .ok ss) :
    ss = declaredSuccs n ∧ ∀ v ∈ ss, v ∈ ids := by
  simp only [checkNode] at h
  by_cases hq : n.type.getD "" = "question"
  · rw [if_pos hq] at h
    have htp : n.type = some "question" := getD_eq_strict _ _ (by decide) hq
    cases hop : n.options with
    | none => simp [hop] at h
    | some opts =>
      simp only [hop] at h
      by_cases hlen : opts.length < 2
      · rw [if_pos hlen] at h
        simp at h
      · rw [if_neg hlen] at h
        obtain ⟨hmap, hall⟩ := checkOptions_ok _ _ _ _ h
        constructor
        · rw [hmap]
          simp [declaredSuccs, htp, hop]
        · intro v hv
          rw [hmap] at hv
          obtain ⟨o, ho, honx⟩ := List.mem_filterMap.mp hv
          obtain ⟨_, nx, hnx, hnxids⟩ := hall o ho
          rw [hnx] at honx
          injection honx with he
          rw [← he]
          exact hnxids
  · rw [if_neg hq] at h
    by_cases hs : n.type.getD "" = "step"
    · rw [if_pos hs] at h
      have htp : n.type = some "step" := getD_eq_strict _ _ (by decide) hs
      cases hnx : n.next with
      | none => simp [hnx] at h
      | some nx =>
        simp only [hnx] at h
        by_cases hne : nx = ""
        · rw [if_pos hne] at h
          simp at h
        · rw [if_neg hne] at h
          by_cases hm : nx ∈ ids
          · rw [if_pos hm] at h
            simp at h
            constructor
            · rw [← h]
              simp [declaredSuccs, htp, hnx]
            · intro v hv
              rw [← h] at hv
              simp at hv
              rw [hv]
              exact hm
          · rw [if_neg hm] at h
            simp at h
    · rw [if_neg hs] at h
      by_cases hr : n.type.getD "" = "resolution"
      · rw [if_pos hr] at h
        have htp : n.type = some "resolution" := getD_eq_strict _ _ (by decide) hr
        by_cases htr : (pyTruthyStr n.next || pyTruthyOpts n.options) = true
        · rw [if_pos htr] at h
          simp at h
        · rw [if_neg htr] at h
          simp at h
          subst h
          constructor
          · simp [declaredSuccs, htp]
          · intro v hv
            simp at hv
      · rw [if_neg hr] at h
        simp at h

/-- Inversion of the dispatch loop: every node passes its check, and
adjacency lookup agrees with the nodes' declared successors. -/
theorem buildAdj_ok (ids : List String) (ns : List RawNode)
    (adjL : List (String × List String)) (h : buildAdj ids ns = .ok adjL) :
    (∀ n ∈ ns, ∃ ss, checkNode ids n = .ok ss) ∧
    (∀ u v, v ∈ adjLookup adjL u ↔
      ∃ n ∈ ns, n.id.getD "" = u ∧ v ∈ declaredSuccs n) := by
  induction ns generalizing adjL with
  | nil =>
    unfold buildAdj at h
    injection h with h2
    subst h2
    constructor
    · intro n hn
      simp at hn
    · intro u v
      simp [adjLookup]
  | cons n rest ih =>
    unfold buildAdj at h
    cases hc : checkNode ids n with
    | error e => simp [hc] at h
    | ok ss =>
      simp only [hc] at h
      cases hb : buildAdj ids rest with
      | error e => simp [hb] at h
      | ok tl =>
        simp only [hb] at h
        injection h with h2
        subst h2
        obtain ⟨hall, hlook⟩ := ih tl hb
        obtain ⟨hss, _⟩ := checkNode_ok ids n ss hc
        constructor
        · intro m hm
          rcases List.mem_cons.mp hm with hm | hm
          · subst hm
            exact ⟨ss, hc⟩
          · exact hall m hm
        · intro u v
          rw [adjLookup_cons]
          by_cases hk : n.id.getD "" = u
          · rw [if_pos hk]
            constructor
            · intro hmem
              rcases List.mem_append.mp hmem with hm | hm
              · exact ⟨n, List.mem_cons_self _ _, hk, by rw [← hss]; exact hm⟩
              · obtain ⟨m, hmrest, hmk, hmv⟩ := (hlook u v).mp hm
                exact ⟨m, List.mem_cons_of_mem _ hmrest, hmk, hmv⟩
            · rintro ⟨m, hmem, hmk, hmv⟩
              rcases List.mem_cons.mp hmem with hm | hm
              · subst hm
                exact List.mem_append_left _ (by rw [hss]; exact hmv)
              · exact List.mem_append_right _ ((hlook u v).mpr ⟨m, hm, hmk, hmv⟩)
          · rw [if_neg hk]
            constructor
            · intro hm
              obtain ⟨m, hmrest, hmk, hmv⟩ := (hlook u v).mp hm
              exact ⟨m, List.mem_cons_of_mem _ hmrest, hmk, hmv⟩
            · rintro ⟨m, hmem, hmk, hmv⟩
              rcases List.mem_cons.mp hmem with hm | hm
              · subst hm
                exact absurd hmk hk
              · exact (hlook u v).mpr ⟨m, hm, hmk, hmv⟩

/-- The traversal of `validate` visits exactly the ids reachable from
`start` along the tree's declared edges. -/
theorem visited_iff_reachable (ns : List RawNode) (ids : List String)
    (adjL : List (String × List String)) (hb : buildAdj ids ns = .ok adjL)
    (hids : ∀ n ∈ ns, n.id ≠ none) :
    ∀ x, x ∈ pyDFS adjL (1 + sumAdj adjL) [] ["start"] ↔ reachableId ns x := by
  have hlook := (buildAdj_ok ids ns adjL hb).2
  have hedge : ∀ u v, v ∈ adjLookup adjL u ↔ treeEdge ns u v := by
    intro u v
    rw [hlook u v]
    constructor
    · rintro ⟨n, hn, hk, hv⟩
      obtain ⟨i, hi⟩ := Option.ne_none_iff_exists'.mp (hids n hn)
      rw [hi] at hk
      simp at hk
      exact ⟨n, hn, by rw [hi, hk], hv⟩
    · rintro ⟨n, hn, hk, hv⟩
      exact ⟨n, hn, by rw [hk]; rfl, hv⟩
  intro x
  constructor
  · intro hx
    refine pyDFS_sound adjL _ [] ["start"] (reachableId ns) ?_ ?_ ?_ x hx
    · intro v hv
      simp at hv
    · intro v hv
      simp at hv
      rw [hv]
      exact Relation.ReflTransGen.refl
    · intro u v hu hv
      exact Relation.ReflTransGen.tail hu ((hedge u v).mp hv)
  · intro hx
    unfold reachableId at hx
    induction hx with
    | refl =>
      apply pyDFS_mem
      · rw [sumUnvisited_nil]
        simp
      · exact .inr (by simp)
    | tail h1 h2 ih =>
      refine pyDFS_closed adjL _ [] ["start"] ?_ ?_ _ ih _ ((hedge _ _).mpr h2)
      · rw [sumUnvisited_nil]
        simp
      · intro v hv
        simp at hv

/-- Inversion of a successful validation: every phase passed and every
collected id was visited by the traversal. -/
theorem validate_ok_inv (t : RawTree) (h : validate t = .ok true) :
    ∃ ns ids adjL, t.nodes = some ns ∧ collectIds ns = .ok ids ∧
      "start" ∈ ids ∧ buildAdj ids ns = .ok adjL ∧
      ∀ x ∈ ids, x ∈ pyDFS adjL (1 + sumAdj adjL) [] ["start"] := by
  unfold validate at h
  cases hti : t.title with
  | none => simp only [hti] at h; simp at h
  | some ti =>
    simp only [hti] at h
    cases hn : t.nodes with
    | none => simp only [hn] at h; simp at h
    | some ns =>
      simp only [hn] at h
      by_cases he : ns.isEmpty
      · rw [if_pos he] at h
        simp at h
      · rw [if_neg he] at h
        cases hc : collectIds ns with
        | error e => simp only [hc] at h; simp at h
        | ok ids =>
          simp only [hc] at h
          by_cases hs : "start" ∈ ids
          · rw [if_pos hs] at h
            cases hb : buildAdj ids ns with
            | error e => simp only [hb] at h; simp at h
            | ok adjL =>
              simp only [hb] at h
              refine ⟨ns, ids, adjL, rfl, hc, hs, hb, ?_⟩
              intro x hx
              by_cases hu : (List.insertionSort (fun a b => a ≤ b)
                  (ids.dedup.filter (fun y =>
                    decide (y ∉ pyDFS adjL (1 + sumAdj adjL) [] ["start"])))).isEmpty
              · have hperm := List.perm_insertionSort (fun a b : String => a ≤ b)
                  (ids.dedup.filter (fun y =>
                    decide (y ∉ pyDFS adjL (1 + sumAdj adjL) [] ["start"])))
                rw [List.isEmpty_iff.mp hu] at hperm
                have hfil := hperm.symm.eq_nil
                have hx2 := List.filter_eq_nil_iff.mp hfil x (List.mem_dedup.mpr hx)
                simpa using hx2
              · rw [if_neg hu] at h
                simp at h
          · rw [if_neg hs] at h
            simp at h

/-- C6: on every tree `validate` accepts, the ids reachable from `start`
along `next`/`option.next` edges are exactly the collected node ids; and
when the earlier phases pass but some id is unreachable, `validate` fails
listing exactly the unreachable ids, sorted lexicographically and without
duplicates. -/
theorem validate_reachability :
    (∀ (t : RawTree) (ns : List RawNode) (ids : List String),
        validate t = .ok true → t.nodes = some ns → collectIds ns = .ok ids →
        ∀ x, x ∈ ids ↔ reachableId ns x) ∧
    (∀ (t : RawTree) (ns : List RawNode) (ids : List String)
        (adjL : List (String × List String)) (x : String),
        t.title ≠ none → t.nodes = some ns → collectIds ns = .ok ids →
        "start" ∈ ids → buildAdj ids ns = .ok adjL →
        x ∈ ids → ¬reachableId ns x →
        ∃ L, validate t = .error (.unreachable L) ∧ List.Sorted (· ≤ ·) L ∧
          L.Nodup ∧ ∀ y, y ∈ L ↔ y ∈ ids ∧ ¬reachableId ns y) := by
  constructor
  · intro t ns ids hv hn hc x
    obtain ⟨ns2, ids2, adjL, hn2, hc2, hs2, hb2, hvis⟩ := validate_ok_inv t hv
    rw [hn] at hn2
    injection hn2 with he
    subst he
    rw [hc] at hc2
    injection hc2 with he2
    subst he2
    have hids : ∀ n ∈ ns, n.id ≠ none :=
      fun n hn3 => ((collectIds_ok ns ids hc).2 n hn3).1
    have hiff := visited_iff_reachable ns ids adjL hb2 hids
    constructor
    · intro hx
      exact (hiff x).mp (hvis x hx)
    · intro hr
      unfold reachableId at hr
      induction hr with
      | refl => exact hs2
      | tail h1 h2 ih =>
        obtain ⟨n, hnmem, hnid, hvsucc⟩ := h2
        obtain ⟨ss, hss⟩ := (buildAdj_ok ids ns adjL hb2).1 n hnmem
        obtain ⟨hsseq, hssids⟩ := checkNode_ok ids n ss hss
        exact hssids _ (by rw [hsseq]; exact hvsucc)
  · intro t ns ids adjL x ht hn hc hs hb hx hnr
    obtain ⟨ti, hti⟩ := Option.ne_none_iff_exists'.mp ht
    have hids : ∀ n ∈ ns, n.id ≠ none :=
      fun n hn3 => ((collectIds_ok ns ids hc).2 n hn3).1
    have hiff := visited_iff_reachable ns ids adjL hb hids
    have hxv : x ∉ pyDFS adjL (1 + sumAdj adjL) [] ["start"] :=
      fun hv => hnr ((hiff x).mp hv)
    have hxf : x ∈ ids.dedup.filter
        (fun y => decide (y ∉ pyDFS adjL (1 + sumAdj adjL) [] ["start"])) :=
      List.mem_filter.mpr ⟨List.mem_dedup.mpr hx, by simpa using hxv⟩
    have hperm := List.perm_insertionSort (fun a b : String => a ≤ b)
      (ids.dedup.filter
        (fun y => decide (y ∉ pyDFS adjL (1 + sumAdj adjL) [] ["start"])))
    have hxL := hperm.mem_iff.mpr hxf
    have hLne : (List.insertionSort (fun a b : String => a ≤ b)
        (ids.dedup.filter
          (fun y => decide (y ∉ pyDFS adjL (1 + sumAdj adjL) [] ["start"])))).isEmpty
        = false :=
      List.isEmpty_eq_false.mpr (List.ne_nil_of_mem hxL)
    have hne : ns ≠ [] := by
      intro hns
      subst hns
      obtain ⟨hmap, _⟩ := collectIds_ok [] ids hc
      rw [hmap] at hx
      simp at hx
    have h1 : ¬ns.isEmpty = true := by
      simp [List.isEmpty_eq_false.mpr hne]
    have h2 : ¬(List.insertionSort (fun a b : String => a ≤ b)
        (ids.dedup.filter
          (fun y => decide (y ∉ pyDFS adjL (1 + sumAdj adjL) [] ["start"])))).isEmpty
        = true := by
      rw [hLne]
      simp
    have hval : validate t = .error (.unreachable
        (List.insertionSort (fun a b : String => a ≤ b)
          (ids.dedup.filter
            (fun y => decide (y ∉ pyDFS adjL (1 + sumAdj adjL) [] ["start"]))))) := by
      simp only [validate, hti, hn, hc, hb, if_neg h1, if_pos hs, if_neg h2]
    refine ⟨_, hval, List.sorted_insertionSort _ _,
      hperm.symm.nodup (List.Nodup.filter _ (List.nodup_dedup ids)), ?_⟩
    intro y
    rw [hperm.mem_iff, List.mem_filter, List.mem_dedup]
    constructor
    · rintro ⟨h1, h2⟩
      refine ⟨h1, fun hr => ?_⟩
      simp at h2
      exact h2 ((hiff y).mpr hr)
    · rintro ⟨h1, h2⟩
      refine ⟨h1, ?_⟩
      simp
      exact fun hv => h2 ((hiff y).mp hv)

/-- The two-resolution demo document declares no edges at all. -/
theorem unreach_demo_no_edge (u v : String) :
    ¬treeEdge [loneStart, strandedNode] u v := by
  rintro ⟨n, hn, hid, hv⟩
  rcases List.mem_cons.mp hn with h | h
  · subst h
    simp [declaredSuccs, loneStart] at hv
  · simp at h
    subst h
    simp [declaredSuccs, strandedNode] at hv

/-- The stranded node of the demo document is not reachable from start. -/
theorem strandedNode_not_reachable :
    ¬reachableId [loneStart, strandedNode] "zz" := by
  intro h
  rcases Relation.ReflTransGen.cases_head h with h1 | ⟨c, hc, _⟩
  · exact absurd h1 (by decide)
  · exact unreach_demo_no_edge _ _ hc

/-- Witness for C6: on the accepted demo tree `resDone` is reachable, and
on the two-resolution document `validate` lists the stranded id. -/
theorem validate_reachability_witness :
    reachableId demoNodes "resDone" ∧
    (∃ L, validate unreachTree = .error (.unreachable L) ∧
      List.Sorted (· ≤ ·) L ∧ L.Nodup ∧
      ∀ y, y ∈ L ↔ y ∈ ["start", "zz"] ∧
        ¬reachableId [loneStart, strandedNode] y) :=
  ⟨(validate_reachability.1 demoTree demoNodes
      ["start", "stepA", "resDone", "resEnd"]
      (by decide) rfl (by decide) "resDone").mp (by decide),
   validate_reachability.2 unreachTree [loneStart, strandedNode] ["start", "zz"]
      [("start", []), ("zz", [])] "zz" (by decide) rfl (by decide) (by decide)
      (by decide) (by decide) strandedNode_not_reachable⟩

/-- Lookup after the in-place overwrite pass of `dictInsert`. -/
theorem dictGet_map_overwrite (m : List (String × RawNode)) (k' : String)
    (v : RawNode) (k : String) :
    dictGet (m.map (fun p => if p.1 = k' then (k', v) else p)) k =
      if k = k' then (dictGet m k').map (fun _ => v) else dictGet m k := by
  induction m with
  | nil => by_cases hk : k = k' <;> simp [dictGet, hk]
  | cons p tl ih =>
    by_cases hp : p.1 = k'
    · by_cases hk : k = k'
      · subst hk
        simp [dictGet, hp]
      · have hpk : ¬p.1 = k := fun h => hk (by rw [← h, hp])
        simp [dictGet, hp, hpk, hk, Ne.symm hk, ih]
    · by_cases hpk : p.1 = k
      · have hk : ¬k = k' := fun h => hp (by rw [hpk, h])
        simp [dictGet, if_neg hp, hpk, hk]
      · simp [dictGet, hp, hpk, ih]

/-- Lookup after appending a single fresh entry. -/
theorem dictGet_append_single (m : List (String × RawNode)) (k' : String)
    (v : RawNode) (k : String) :
    dictGet (m ++ [(k', v)]) k =
      match dictGet m k with
      | some x => some x
      | none => if k = k' then some v else none := by
  induction m with
  | nil =>
    simp only [List.nil_append, dictGet]
    by_cases hk : k' = k
    · rw [if_pos hk, if_pos hk.symm]
    · rw [if_neg hk, if_neg (fun h => hk h.symm)]
  | cons p tl ih =>
    by_cases hpk : p.1 = k
    · simp [dictGet, hpk]
    · simp [dictGet, hpk, ih]

/-- The membership probe of `dictInsert` agrees with lookup. -/
theorem any_key_iff (m : List (String × RawNode)) (k : String) :
    m.any (fun p => p.1 = k) = true ↔ dictGet m k ≠ none := by
  induction m with
  | nil => simp [dictGet]
  | cons p tl ih =>
    by_cases hpk : p.1 = k
    · simp [dictGet, hpk]
    · simp [dictGet, hpk, ih]

/-- Python dict insertion updates exactly the inserted key. -/
theorem dictGet_dictInsert (m : List (String × RawNode)) (k' : String)
    (v : RawNode) (k : String) :
    dictGet (dictInsert m k' v) k = if k = k' then some v else dictGet m k := by
  unfold dictInsert
  by_cases hany : m.any (fun p => p.1 = k') = true
  · rw [if_pos hany, dictGet_map_overwrite]
    by_cases hk : k = k'
    · rw [if_pos hk, if_pos hk]
      obtain ⟨x, hx⟩ := Option.ne_none_iff_exists'.mp ((any_key_iff m k').mp hany)
      rw [hx]
      rfl
    · rw [if_neg hk, if_neg hk]
  · rw [if_neg hany, dictGet_append_single]
    by_cases hk : k = k'
    · subst hk
      have hnone : dictGet m k = none := by
        by_cases h : dictGet m k = none
        · exact h
        · exact absurd ((any_key_iff m k).mpr h) hany
      rw [hnone]
    · cases hdm : dictGet m k with
      | none => simp [hk]
      | some x => simp [hk]

/-- Membership in an insertion result comes from the map or the new key. -/
theorem mem_dictInsert (m : List (String × RawNode)) (k' : String)
    (v : RawNode) (p : String × RawNode) (h : p ∈ dictInsert m k' v) :
    p ∈ m ∨ p.1 = k' := by
  unfold dictInsert at h
  by_cases hany : m.any (fun q => q.1 = k') = true
  · rw [if_pos hany] at h
    obtain ⟨p0, hp0, hfp⟩ := List.mem_map.mp h
    by_cases hp0k : p0.1 = k'
    · rw [if_pos hp0k] at hfp
      right
      rw [← hfp]
    · rw [if_neg hp0k] at hfp
      left
      rw [← hfp]
      exact hp0
  · rw [if_neg hany] at h
    rcases List.mem_append.mp h with h | h
    · exact .inl h
    · simp at h
      right
      rw [h]

/-- Values stored by the node indexing come from the node list. -/
theorem indexNodes_get_mem_aux (ns : List RawNode)
    (m : List (String × RawNode)) (k : String) (n : RawNode)
    (h : dictGet (ns.foldl (fun acc q => dictInsert acc (q.id.getD "") q) m) k
      = some n) :
    dictGet m k = some n ∨ (n ∈ ns ∧ n.id.getD "" = k) := by
  induction ns generalizing m with
  | nil => exact .inl h
  | cons q rest ih =>
    rcases ih (dictInsert m (q.id.getD "") q) h with h2 | h2
    · rw [dictGet_dictInsert] at h2
      by_cases hk : k = q.id.getD ""
      · rw [if_pos hk] at h2
        injection h2 with h3
        refine .inr ⟨?_, ?_⟩
        · rw [← h3]
          exact List.mem_cons_self _ _
        · rw [← h3, hk]
      · rw [if_neg hk] at h2
        exact .inl h2
    · exact .inr ⟨List.mem_cons_of_mem _ h2.1, h2.2⟩

/-- The keys resolvable after indexing are the inserted node ids. -/
theorem indexNodes_get_ne_none_aux (ns : List RawNode)
    (m : List (String × RawNode)) (k : String) :
    dictGet (ns.foldl (fun acc q => dictInsert acc (q.id.getD "") q) m) k ≠ none ↔
      dictGet m k ≠ none ∨ ∃ q ∈ ns, q.id.getD "" = k := by
  induction ns generalizing m with
  | nil => simp
  | cons q rest ih =>
    have base : dictGet (dictInsert m (q.id.getD "") q) k ≠ none ↔
        (k = q.id.getD "" ∨ dictGet m k ≠ none) := by
      rw [dictGet_dictInsert]
      by_cases hk : k = q.id.getD ""
      · simp [hk]
      · simp [hk]
    rw [List.foldl_cons, ih, base]
    constructor
    · rintro ((hk | hm) | ⟨q2, hq2, hk2⟩)
      · exact .inr ⟨q, List.mem_cons_self _ _, hk.symm⟩
      · exact .inl hm
      · exact .inr ⟨q2, List.mem_cons_of_mem _ hq2, hk2⟩
    · rintro (hm | ⟨q2, hq2, hk2⟩)
      · exact .inl (.inr hm)
      · rcases List.mem_cons.mp hq2 with h | h
        · subst h
          exact .inl (.inl hk2.symm)
        · exact .inr ⟨q2, h, hk2⟩

/-- Every entry of the index takes its key from some node's id. -/
theorem indexNodes_entry_key_aux (ns : List RawNode)
    (m : List (String × RawNode)) (p : String × RawNode)
    (h : p ∈ ns.foldl (fun acc q => dictInsert acc (q.id.getD "") q) m) :
    p ∈ m ∨ ∃ q ∈ ns, q.id.getD "" = p.1 := by
  induction ns generalizing m with
  | nil => exact .inl h
  | cons q rest ih =>
    rcases ih (dictInsert m (q.id.getD "") q) h with h2 | h2
    · rcases mem_dictInsert m (q.id.getD "") q p h2 with h3 | h3
      · exact .inl h3
      · exact .inr ⟨q, List.mem_cons_self _ _, h3.symm⟩
    · obtain ⟨q2, hq2, hk2⟩ := h2
      exact .inr ⟨q2, List.mem_cons_of_mem _ hq2, hk2⟩

/-- Values stored in the node index come from the node list. -/
theorem indexNodes_get_mem (ns : List RawNode) (k : String) (n : RawNode)
    (h : dictGet (indexNodes ns) k = some n) : n ∈ ns ∧ n.id.getD "" = k := by
  unfold indexNodes at h
  rcases indexNodes_get_mem_aux ns [] k n h with h2 | h2
  · simp [dictGet] at h2
  · exact h2

/-- A key resolves in the node index exactly when some node carries it. -/
theorem indexNodes_get_ne_none (ns : List RawNode) (k : String) :
    dictGet (indexNodes ns) k ≠ none ↔ ∃ q ∈ ns, q.id.getD "" = k := by
  unfold indexNodes
  rw [indexNodes_get_ne_none_aux]
  simp [dictGet]

/-- Every entry of the node index takes its key from some node's id. -/
theorem indexNodes_entry_key (ns : List RawNode) (p : String × RawNode)
    (h : p ∈ indexNodes ns) : ∃ q ∈ ns, q.id.getD "" = p.1 := by
  unfold indexNodes at h
  rcases indexNodes_entry_key_aux ns [] p h with h2 | h2
  · simp at h2
  · exact h2

/-- The option scan leaves the cursor alone or moves it to a known id,
provided all scanned options point into `ids`. -/
theorem navScan_current (ids : List String) (label : String) (n : RawNode)
    (s : Engine) (opts : List RawOption)
    (hopts : ∀ o ∈ opts, ∀ nx, o.next = some nx → nx ∈ ids) :
    (navScan label n s opts).2.current = s.current ∨
      (navScan label n s opts).2.current ∈ ids := by
  induction opts with
  | nil => exact .inl rfl
  | cons o rest ih =>
    cases hl : o.label with
    | none => simp [navScan, hl]
    | some l =>
      by_cases hq : l = label
      · cases ht : n.text with
        | none => simp [navScan, hl, hq, ht]
        | some txt =>
          cases hnx : o.next with
          | none => simp [navScan, hl, hq, ht, hnx]
          | some nx =>
            right
            have heq : (navScan label n s (o :: rest)).2.current = nx := by
              simp [navScan, hl, hq, ht, hnx]
            rw [heq]
            exact hopts o (List.mem_cons_self _ _) nx hnx
      · simp only [navScan, hl]
        rw [if_neg hq]
        exact ih fun q hq2 nx hnx => hopts q (List.mem_cons_of_mem _ hq2) nx hnx

/-- A successful `go_back` scan leaves the cursor at `start` or at a key
of the scanned index. -/
theorem goScan_ok_current (target : String) (s : Engine)
    (l : List (String × RawNode)) (b : Bool) (s' : Engine)
    (h : goScan target s l = .ok (b, s')) :
    s'.current = "start" ∨ ∃ p ∈ l, p.1 = s'.current := by
  induction l with
  | nil =>
    simp [goScan] at h
    exact .inl (by rw [← h.2])
  | cons p rest ih =>
    obtain ⟨nid, n⟩ := p
    cases ht : n.text with
    | none => simp [goScan, ht] at h
    | some t =>
      by_cases he : t = target
      · simp [goScan, ht, he] at h
        right
        exact ⟨(nid, n), List.mem_cons_self _ _, by rw [← h.2]⟩
      · simp only [goScan, ht] at h
        rw [if_neg he] at h
        rcases ih h with h2 | ⟨p2, hp2, hk2⟩
        · exact .inl h2
        · exact .inr ⟨p2, List.mem_cons_of_mem _ hp2, hk2⟩

/-- On an engine over a validated node list, no operation can move the
cursor outside the collected id set. -/
theorem applyOp_preserves_current (ns : List RawNode) (ids : List String)
    (adjL : List (String × List String)) (hb : buildAdj ids ns = .ok adjL)
    (hs : "start" ∈ ids)
    (hkey : ∀ k, (∃ q ∈ ns, q.id.getD "" = k) → k ∈ ids)
    (s : Engine) (hn : s.nodes = indexNodes ns) (hcur : s.current ∈ ids)
    (op : Op) : (applyOp s op).current ∈ ids := by
  cases op with
  | getCurrent => exact hcur
  | resetOp => exact hs
  | nav label =>
    show (navigate label s).2.current ∈ ids
    cases hd : dictGet s.nodes s.current with
    | none =>
      have heq : (navigate label s).2 = s := by simp [navigate, hd]
      rw [heq]
      exact hcur
    | some n =>
      have hd2 : dictGet (indexNodes ns) s.current = some n := by
        rw [← hn]
        exact hd
      have hnmem : n ∈ ns := (indexNodes_get_mem ns s.current n hd2).1
      cases htp : n.type with
      | none =>
        have heq : (navigate label s).2 = s := by simp [navigate, hd, htp]
        rw [heq]
        exact hcur
      | some ty =>
        by_cases hq : ty = "question"
        · have heq : (navigate label s).2 =
              (navScan label n s (n.options.getD [])).2 := by
            simp [navigate, hd, htp, hq]
          rw [heq]
          obtain ⟨ss, hss⟩ := (buildAdj_ok ids ns adjL hb).1 n hnmem
          obtain ⟨hsseq, hssids⟩ := checkNode_ok ids n ss hss
          have hopts : ∀ o ∈ n.options.getD [], ∀ nx, o.next = some nx →
              nx ∈ ids := by
            intro o ho nx hnx
            apply hssids
            rw [hsseq]
            have htq : n.type = some "question" := by rw [htp, hq]
            simp only [declaredSuccs, htq, if_pos]
            exact List.mem_filterMap.mpr ⟨o, ho, hnx⟩
          rcases navScan_current ids label n s (n.options.getD []) hopts with h | h
          · rw [h]
            exact hcur
          · exact h
        · have heq : (navigate label s).2 = s := by
            simp [navigate, hd, htp, hq]
          rw [heq]
          exact hcur
  | adv =>
    show (advance s).2.current ∈ ids
    cases hd : dictGet s.nodes s.current with
    | none =>
      have heq : (advance s).2 = s := by simp [advance, hd]
      rw [heq]
      exact hcur
    | some n =>
      have hd2 : dictGet (indexNodes ns) s.current = some n := by
        rw [← hn]
        exact hd
      have hnmem : n ∈ ns := (indexNodes_get_mem ns s.current n hd2).1
      cases htp : n.type with
      | none =>
        have heq : (advance s).2 = s := by simp [advance, hd, htp]
        rw [heq]
        exact hcur
      | some ty =>
        by_cases hq : ty = "step"
        · cases ht : n.text with
          | none =>
            have heq : (advance s).2 = s := by simp [advance, hd, htp, hq, ht]
            rw [heq]
            exact hcur
          | some txt =>
            cases hnx : n.next with
            | none =>
              have heq : (advance s).2 =
                  { s with history := s.history ++ [txt] } := by
                simp [advance, hd, htp, hq, ht, hnx]
              rw [heq]
              exact hcur
            | some nx =>
              have heq : (advance s).2 =
                  { s with history := s.history ++ [txt], current := nx } := by
                simp [advance, hd, htp, hq, ht, hnx]
              rw [heq]
              obtain ⟨ss, hss⟩ := (buildAdj_ok ids ns adjL hb).1 n hnmem
              obtain ⟨hsseq, hssids⟩ := checkNode_ok ids n ss hss
              apply hssids
              rw [hsseq]
              have hts : n.type = some "step" := by rw [htp, hq]
              simp [declaredSuccs, hts, hnx]
        · have heq : (advance s).2 = s := by simp [advance, hd, htp, hq]
          rw [heq]
          exact hcur
  | back =>
    show (match goBack s with
          | .ok (_, s') => s'
          | .error _ => s).current ∈ ids
    cases hl : s.history.getLast? with
    | none =>
      have heq : goBack s = .ok (false, s) := by simp [goBack, hl]
      rw [heq]
      exact hcur
    | some target =>
      have heq : goBack s = goScan target s s.nodes := by simp [goBack, hl]
      rw [heq]
      cases hr : goScan target s s.nodes with
      | error e => exact hcur
      | ok r =>
        obtain ⟨b, s'⟩ := r
        show s'.current ∈ ids
        rcases goScan_ok_current target s s.nodes b s' hr with h | ⟨p, hp, hk⟩
        · rw [h]
          exact hs
        · rw [← hk]
          apply hkey
          have hq : p ∈ indexNodes ns := by
            rw [← hn]
            exact hp
          exact indexNodes_entry_key ns p hq

/-- C9: on a tree accepted by `validate`, the cursor invariant holds:
after any sequence of session operations, successful or failing, the
current id names an existing node, so `getCurrentNode` succeeds. -/
theorem cursor_always_resolves (t : RawTree) (ns : List RawNode)
    (hv : validate t = .ok true) (hn : t.nodes = some ns) (ops : List Op) :
    ∃ n, getCurrentNode (run ops (initEngine ns)) = .ok n := by
  obtain ⟨ns2, ids, adjL, hn2, hc, hs, hb, _⟩ := validate_ok_inv t hv
  rw [hn] at hn2
  injection hn2 with he
  subst he
  have hmap := (collectIds_ok ns ids hc).1
  have hkey : ∀ k, (∃ q ∈ ns, q.id.getD "" = k) → k ∈ ids := by
    intro k hk
    rw [hmap]
    exact List.mem_map.mpr hk
  have hrun : ∀ (ops2 : List Op) (s : Engine), s.nodes = indexNodes ns →
      s.current ∈ ids →
      (run ops2 s).nodes = indexNodes ns ∧ (run ops2 s).current ∈ ids := by
    intro ops2
    induction ops2 with
    | nil => exact fun s h1 h2 => ⟨h1, h2⟩
    | cons op rest ih =>
      intro s h1 h2
      exact ih (applyOp s op) (by rw [applyOp_nodes]; exact h1)
        (applyOp_preserves_current ns ids adjL hb hs hkey s h1 h2 op)
  obtain ⟨h1, h2⟩ := hrun ops (initEngine ns) rfl hs
  have hne : dictGet (run ops (initEngine ns)).nodes
      (run ops (initEngine ns)).current ≠ none := by
    rw [h1]
    refine (indexNodes_get_ne_none ns _).mpr ?_
    rw [hmap] at h2
    exact List.mem_map.mp h2
  cases hdg : dictGet (run ops (initEngine ns)).nodes
      (run ops (initEngine ns)).current with
  | none => exact absurd hdg hne
  | some n => exact ⟨n, by simp [getCurrentNode, hdg]⟩

/-- Witness for C9: a mixed session with failing calls on the demo tree
still resolves the cursor. -/
theorem cursor_always_resolves_witness :
    ∃ n, getCurrentNode
      (run [.nav "Yes", .back, .adv, .resetOp, .nav "No", .back]
        (initEngine demoNodes)) = .ok n :=
  cursor_always_resolves demoTree demoNodes (by decide) rfl
    [.nav "Yes", .back, .adv, .resetOp, .nav "No", .back]
